import Mathlib

/-!
Verification of the lost-and-found backend (`app/item`, `app/core`).

The development shallowly embeds the Python source:

* `match_claim_to_item` (app/item/views.py) and the parts of CPython's
  `difflib.SequenceMatcher` it calls (`ratio`, `get_matching_blocks`,
  `find_longest_match`, `__chain_b` with `isjunk=None` and default
  `autojunk=True`).  Similarity ratios are modelled as exact rationals
  (`2*matches/total`); CPython computes the same value in double-precision
  floating point, which agrees with the exact rational comparisons against
  `0.6` and against the running best for every string short enough to exist
  in practice (a disagreement would need descriptions of length about 10^16).
* The Django REST framework viewsets of app/item/views.py (queryset scoping,
  `get_permissions`, routed actions, detail dispatch) and the serializers of
  app/item/serializers.py, over an explicit database state.  Python's
  `str.lower` is modelled on its ASCII fragment (`Char.toLower`).  Django
  model instances are records; primary keys are naturals.
-/

namespace LostFound

set_option maxRecDepth 10000

/-- Python `str.lower`, restricted to ASCII (`Char.toLower` lowers exactly the
basic latin letters `A`-`Z`, which is `str.lower`'s action on ASCII). -/
def strLower (s : List Char) : List Char := s.map Char.toLower

/-- The positions of character `c` in `b`, in increasing order: the list
`difflib.SequenceMatcher.__chain_b` stores in `b2j[c]`. -/
def listPositions (b : List Char) (c : Char) : List Nat :=
  (List.range b.length).filter fun j => b.getD j ' ' == c

/-- Embeds `b2j` lookup of `__chain_b` after the autojunk purge: with `isjunk=None`
and `autojunk=True`, an element is purged as popular when `len(b) >= 200` and
it occurs more than `len(b) // 100 + 1` times; purged or absent characters
give the empty index list (`b2j.get(a[i], nothing)`). -/
def b2j (b : List Char) (c : Char) : List Nat :=
  if 200 ≤ b.length ∧ b.length / 100 + 1 < b.count c then [] else listPositions b c

/-- The running best triple `(besti, bestj, bestsize)` of
`find_longest_match`. -/
structure Best where
  besti : Nat
  bestj : Nat
  bestsize : Nat
deriving DecidableEq, Repr

/-- The inner `for j in b2j.get(a[i], nothing)` loop of `find_longest_match`,
processing the index list of row `i`'s character.  `j2len` is the previous
row's chain-length dictionary (a total function defaulting to `0`, keyed by
integers because CPython looks up `j-1`, which is `-1` when `j = 0` and then
never a key); `newj2len` accumulates the current row's dictionary.
`j < blo` is `continue`, `bhi <= j` is `break`, and a chain `k` longer than
`bestsize` moves the best to `(i-k+1, j-k+1, k)`. -/
def innerLoop (j2len : Int → Nat) (blo bhi i : Nat) :
    List Nat → (Int → Nat) → Best → (Int → Nat) × Best
  | [], newj2len, best => (newj2len, best)
  | j :: js, newj2len, best =>
    if j < blo then innerLoop j2len blo bhi i js newj2len best
    else if bhi ≤ j then (newj2len, best)
    else
      let k := j2len ((j : Int) - 1) + 1
      let newj2len' : Int → Nat := fun x => if x = (j : Int) then k else newj2len x
      if best.bestsize < k then
        innerLoop j2len blo bhi i js newj2len' ⟨i + 1 - k, j + 1 - k, k⟩
      else
        innerLoop j2len blo bhi i js newj2len' best

/-- The outer `for i in range(alo, ahi)` loop of `find_longest_match`: each row
starts from a fresh `newj2len = {}` and installs the row's dictionary as
`j2len` for the next row. -/
def outerLoop (a b : List Char) (blo bhi : Nat) :
    List Nat → (Int → Nat) → Best → (Int → Nat) × Best
  | [], j2len, best => (j2len, best)
  | i :: rows, j2len, best =>
    let st := innerLoop j2len blo bhi i (b2j b (a.getD i ' ')) (fun _ => 0) best
    outerLoop a b blo bhi rows st.1 st.2

/-- The first post-loop `while` of `find_longest_match`: extend the best block
downwards while the preceding characters match (`self.bjunk` is empty because
`isjunk=None`, so the junk test never blocks and the junk-extension loops are
no-ops).  Structural recursion on `besti`, which the loop decrements; when
`besti = 0` the guard `alo < besti` is false, so stopping there is the loop's
own exit. -/
def extendLower (a b : List Char) (alo blo : Nat) : Nat → Nat → Nat → Best
  | 0, bestj, bestsize => ⟨0, bestj, bestsize⟩
  | besti + 1, bestj, bestsize =>
    if alo < besti + 1 ∧ blo < bestj ∧ a.getD besti ' ' = b.getD (bestj - 1) ' ' then
      extendLower a b alo blo besti (bestj - 1) (bestsize + 1)
    else ⟨besti + 1, bestj, bestsize⟩

/-- The second post-loop `while` of `find_longest_match`: extend the best block
upwards while the following characters match.  Structural recursion on the
distance `ahi - (besti + bestsize)`, kept in lockstep with the loop (both the
fuel and the distance drop by one per iteration); at fuel `0` the distance is
`0`, so the guard `besti + bestsize < ahi` is false and the loop exits. -/
def extendUpperF (a b : List Char) (ahi bhi besti bestj : Nat) : Nat → Nat → Nat
  | 0, bestsize => bestsize
  | f + 1, bestsize =>
    if besti + bestsize < ahi ∧ bestj + bestsize < bhi ∧
        a.getD (besti + bestsize) ' ' = b.getD (bestj + bestsize) ' ' then
      extendUpperF a b ahi bhi besti bestj f (bestsize + 1)
    else bestsize

/-- The second post-loop `while`, entered at the loop head. -/
def extendUpper (a b : List Char) (ahi bhi besti bestj bestsize : Nat) : Nat :=
  extendUpperF a b ahi bhi besti bestj (ahi - (besti + bestsize)) bestsize

/-- Embeds `SequenceMatcher.find_longest_match(alo, ahi, blo, bhi)`. -/
def find_longest_match (a b : List Char) (alo ahi blo bhi : Nat) : Best :=
  let st := outerLoop a b blo bhi (List.range' alo (ahi - alo)) (fun _ => 0) ⟨alo, blo, 0⟩
  let lo := extendLower a b alo blo st.2.besti st.2.bestj st.2.bestsize
  ⟨lo.besti, lo.bestj, extendUpper a b ahi bhi lo.besti lo.bestj lo.bestsize⟩

/-- The total size of the matching blocks `get_matching_blocks` collects on the
subproblem `(alo, ahi, blo, bhi)` (the queue order and the final merge step do
not affect the total).  `fuel` bounds the recursion depth; the measure
`(ahi - alo) + (bhi - blo)` strictly decreases at every recursive call, so the
fuel supplied by `matchingSum` is never exhausted. -/
def matchSumF (a b : List Char) : Nat → Nat → Nat → Nat → Nat → Nat
  | 0, _, _, _, _ => 0
  | fuel + 1, alo, ahi, blo, bhi =>
    let m := find_longest_match a b alo ahi blo bhi
    if m.bestsize = 0 then 0
    else
      m.bestsize +
        (if alo < m.besti ∧ blo < m.bestj then
          matchSumF a b fuel alo m.besti blo m.bestj else 0) +
        (if m.besti + m.bestsize < ahi ∧ m.bestj + m.bestsize < bhi then
          matchSumF a b fuel (m.besti + m.bestsize) ahi (m.bestj + m.bestsize) bhi else 0)

/-- Embeds `sum(triple[-1] for triple in self.get_matching_blocks())`. -/
def matchingSum (a b : List Char) : Nat :=
  matchSumF a b (a.length + b.length + 1) 0 a.length 0 b.length

/-- Embeds `difflib._calculate_ratio(matches, length)`. -/
def calculateRatio (matched length : Nat) : ℚ :=
  if length ≠ 0 then 2 * (matched : ℚ) / (length : ℚ) else 1

/-- Embeds `SequenceMatcher(None, a, b).ratio()`. -/
def ratioQ (a b : List Char) : ℚ :=
  calculateRatio (matchingSum a b) (a.length + b.length)

/-- Embeds `core.models.Item` (the fields the API reads and writes; `date_lost` and
the optional image are opaque strings, the `tags` many-to-many relation is the
list of associated tag ids). -/
structure Item where
  id : Nat
  user : Nat
  title : String
  description : List Char
  status : String
  category : String
  location_last_seen : String
  date_lost : String
  tags : List Nat
deriving DecidableEq, Repr

/-- Embeds `core.models.Tag`. -/
structure Tag where
  id : Nat
  user : Nat
  name : String
deriving DecidableEq, Repr

/-- Embeds `core.models.Claims` (`item` is the foreign key's target id). -/
structure Claims where
  id : Nat
  user : Nat
  item : Nat
  status : String
  description : List Char
deriving DecidableEq, Repr

/-- Embeds `item.views.match_claim_to_item(claim, items)`: linear scan keeping
`(best_match, best_ratio)`, accepting a candidate when
`ratio > best_ratio and ratio > 0.6`. -/
def match_claim_to_item (claim : Claims) (items : List Item) : Option Item :=
  (items.foldl
    (fun best item =>
      let ratio := ratioQ (strLower claim.description) (strLower item.description)
      if best.2 < ratio ∧ (6 / 10 : ℚ) < ratio then (some item, ratio) else best)
    ((none : Option Item), (0 : ℚ))).1

/-- The ratio the scan computes for one candidate (abbreviation of the loop
body's `SequenceMatcher(None, claim.description.lower(),
item.description.lower()).ratio()`). -/
def claimItemRatio (claim : Claims) (item : Item) : ℚ :=
  ratioQ (strLower claim.description) (strLower item.description)

/-- One step of `match_claim_to_item`'s loop (the `foldl` body, named so the
scan can be reasoned about). -/
def matchStep (claim : Claims) (best : Option Item × ℚ) (item : Item) : Option Item × ℚ :=
  if best.2 < claimItemRatio claim item ∧ (6 / 10 : ℚ) < claimItemRatio claim item then
    (some item, claimItemRatio claim item)
  else best

/-! ## The REST layer: database state, querysets, permissions, dispatch

The database is an explicit record of model instances.  A request is modelled
after Django REST framework's dispatch for a router-generated detail URL:
resolve the action from the HTTP method (an unrouted action answers
405 Method Not Allowed), run the view-level `has_permission` checks (403 on
failure), fetch the object from `get_queryset()` (404 when absent), run the
object-level `has_object_permission` checks (403), then perform the action.
All modelled requests carry a valid token (`TokenAuthentication` succeeded);
the unauthenticated 401 path is out of scope of the claims. -/

/-- The application database: all rows of the three item-app models. -/
structure AppDb where
  items : List Item
  tags : List Tag
  claims : List Claims
deriving DecidableEq, Repr

/-- HTTP methods of a detail URL. -/
inductive Method
  | get
  | put
  | patch
  | delete
deriving DecidableEq, Repr

/-- The three permission classes the item app uses.  `isOwnerOrAdmin` is
`item.views.IsOwnerOrAdmin`. -/
inductive Perm
  | isAuthenticated
  | isAdminUser
  | isOwnerOrAdmin
deriving DecidableEq, Repr

/-- View-level `has_permission`.  Requests are authenticated, so
`IsAuthenticated` passes; `IsAdminUser` requires `is_staff`; `IsOwnerOrAdmin`
does not override `has_permission`, inheriting `BasePermission`'s `True`. -/
def hasPermission (staff : Bool) : Perm → Bool
  | .isAuthenticated => true
  | .isAdminUser => staff
  | .isOwnerOrAdmin => true

/-- Object-level `has_object_permission` against the object's owner.
`IsOwnerOrAdmin.has_object_permission` is staff-or-owner; the other two
inherit `BasePermission`'s `True`. -/
def hasObjectPermission (user : Nat) (staff : Bool) (owner : Nat) : Perm → Bool
  | .isAuthenticated => true
  | .isAdminUser => true
  | .isOwnerOrAdmin => staff || owner == user

/-- Embeds `ItemViewSet.get_queryset`: optional `tags` query-parameter filter
(comma-separated ids, here already parsed), then restrict to the requesting
user's items.  The `order_by('-id').distinct()` only affects list order, which
no claim depends on, and is dropped. -/
def item_get_queryset (db : AppDb) (user : Nat) (tagsParam : Option (List Nat)) : List Item :=
  let qs := db.items
  let qs : List Item := match tagsParam with
    | some ids => qs.filter fun it => it.tags.any fun t => ids.contains t
    | none => qs
  qs.filter fun it => it.user == user

/-- Embeds `BasicItemAPIAttrViewSet.get_queryset` as used by `TagViewSet`:
`assigned_only` keeps tags attached to at least one item
(`item__isnull=False`), then restrict to the requesting user's tags
(`order_by('-name').distinct()` dropped as order-only). -/
def tag_get_queryset (db : AppDb) (user : Nat) (assignedOnly : Bool) : List Tag :=
  let qs := db.tags
  let qs := if assignedOnly then
      qs.filter fun t => db.items.any fun it => it.tags.contains t.id
    else qs
  qs.filter fun t => t.user == user

/-- Embeds `ClaimsViewSet.get_queryset`: staff see every claim, everyone else only
their own. -/
def claims_get_queryset (db : AppDb) (user : Nat) (staff : Bool) : List Claims :=
  if staff then db.claims else db.claims.filter fun c => c.user == user

/-- Fresh primary key for a new tag row (autoincrement: larger than every
existing id). -/
def freshTagId (db : AppDb) : Nat := (db.tags.map Tag.id).foldr max 0 + 1

/-- Fresh primary key for a new item row. -/
def freshItemId (db : AppDb) : Nat := (db.items.map Item.id).foldr max 0 + 1

/-- Fresh primary key for a new claim row. -/
def freshClaimId (db : AppDb) : Nat := (db.claims.map Claims.id).foldr max 0 + 1

/-- Embeds `Tag.objects.get_or_create(user=auth_user, name=...)`: reuse the unique
matching row, create a fresh one when there is none, and fail
(`MultipleObjectsReturned`, an unhandled 500) when several match.  Returns the
tag, the updated tag table and the next fresh id. -/
def get_or_create_tag (tags : List Tag) (user nextId : Nat) (name : String) :
    Option (Tag × List Tag × Nat) :=
  match tags.filter fun t => t.user == user && t.name == name with
  | [] => some (⟨nextId, user, name⟩, tags ++ [⟨nextId, user, name⟩], nextId + 1)
  | [t] => some (t, tags, nextId)
  | _ => none

/-- Embeds `ItemSerializer._get_or_create_tags(tags, item)`: for each payload tag
name, get-or-create the user's tag and `item.tags.add` it (many-to-many `add`
is idempotent).  Returns the updated tag table, next fresh id and the item's
association list. -/
def get_or_create_tags (user : Nat) :
    List String → List Tag → Nat → List Nat → Option (List Tag × Nat × List Nat)
  | [], tags, nextId, assoc => some (tags, nextId, assoc)
  | name :: names, tags, nextId, assoc =>
    match get_or_create_tag tags user nextId name with
    | none => none
    | some (t, tags', nextId') =>
      get_or_create_tags user names tags' nextId'
        (if assoc.contains t.id then assoc else assoc ++ [t.id])

/-- Validated creation payload of `ItemSerializer` (`title`, `category`,
`location_last_seen`, `date_lost` are required; `description` may be blank,
`status` defaults to `'lost'` in the model, `tags` to `[]`). -/
structure ItemCreate where
  title : String
  description : List Char
  status : Option String
  category : String
  location_last_seen : String
  date_lost : String
  tags : List String
deriving DecidableEq, Repr

/-- Embeds `ItemSerializer.create` under `ItemViewSet.perform_create` (which passes
`user=self.request.user`): create the row, then get-or-create and attach the
payload tags.  `none` models the unhandled `MultipleObjectsReturned`. -/
def item_create (db : AppDb) (user : Nat) (p : ItemCreate) : Option (AppDb × Item) :=
  let it0 : Item :=
    ⟨freshItemId db, user, p.title, p.description, p.status.getD "lost",
      p.category, p.location_last_seen, p.date_lost, []⟩
  match get_or_create_tags user p.tags db.tags (freshTagId db) [] with
  | none => none
  | some (tags', _, assoc) =>
    some ({ db with items := db.items ++ [{ it0 with tags := assoc }], tags := tags' },
      { it0 with tags := assoc })

/-- The `Claims.status` choices (`CLAIM_STATUS_CHOICES`). -/
def claimsChoices : List String := ["pending", "approved", "rejected"]

/-- Validated creation payload of `ClaimsSerializer`: `item` is the id the
required `SlugRelatedField` resolved from the posted title, `status` is
optional (model default `'pending'`), `description` may be blank. -/
structure ClaimCreate where
  item : Nat
  status : Option String
  description : List Char
deriving DecidableEq, Repr

/-- Embeds `ClaimsViewSet.perform_create`: `serializer.save(user=self.request.user)`
persists the claim, then the matcher runs over `Item.objects.all()` (every
item, unscoped) and, when it finds a match, overwrites `claim.item` and saves
again.  Returns the new database and the persisted claim row. -/
def perform_create (db : AppDb) (user : Nat) (p : ClaimCreate) : AppDb × Claims :=
  let claim : Claims :=
    ⟨freshClaimId db, user, p.item, p.status.getD "pending", p.description⟩
  let db1 : AppDb := { db with claims := db.claims ++ [claim] }
  let items := db1.items
  match match_claim_to_item claim items with
  | some matched =>
    let claim' := { claim with item := matched.id }
    ({ db1 with
        claims := db1.claims.map fun x => if x.id == claim.id then claim' else x },
      claim')
  | none => (db1, claim)

/-- Embeds `ClaimsViewSet.get_permissions` for the `create` action (the
`super().get_permissions()` branch, `permission_classes = [IsAuthenticated]`). -/
def claims_get_permissions_create : List Perm := [.isAuthenticated]

/-- Serializer-level validation of a claim creation payload: the posted
`status`, when present, must be one of the model's choices; the `item` slug
must resolve to an existing item. -/
def validClaimCreate (db : AppDb) (p : ClaimCreate) : Bool :=
  (db.items.any fun it => it.id == p.item) &&
    (match p.status with
      | some s => claimsChoices.contains s
      | none => true)

/-- POST `/claims/`: the `create` action.  `get_permissions` falls through to
`super()`, i.e. `[IsAuthenticated]`, so any authenticated user may create;
invalid payloads answer 400, otherwise `perform_create` runs and the view
answers 201. -/
def claims_create (db : AppDb) (user : Nat) (staff : Bool) (p : ClaimCreate) :
    Nat × AppDb × Option Claims :=
  if (claims_get_permissions_create.all (hasPermission staff)) then
    if validClaimCreate db p then
      let r := perform_create db user p
      (201, r.1, some r.2)
    else (400, db, none)
  else (403, db, none)

/-- Update payload of a claim detail request, as the serializer sees it
(`request.data`): each field is present or absent.  `item` is the resolved
slug target. -/
structure ClaimPayload where
  item : Option Nat
  status : Option String
  description : Option (List Char)
deriving DecidableEq, Repr

/-- Truthiness of `self.request.data.get('status')` in
`ClaimsViewSet.get_permissions`: present and non-empty. -/
def statusTruthy (p : ClaimPayload) : Bool :=
  match p.status with
  | some s => !(s == "")
  | none => false

/-- Embeds `ClaimsViewSet.get_permissions` for detail actions: `update` (PUT) and
`destroy` (DELETE) get owner-or-admin; `partial_update` (PATCH) is admin-only
exactly when the raw payload's `status` is truthy. -/
def claims_get_permissions (m : Method) (p : ClaimPayload) : List Perm :=
  match m with
  | .put | .delete => [.isAuthenticated, .isOwnerOrAdmin]
  | .patch =>
    if statusTruthy p then [.isAdminUser]
    else [.isAuthenticated, .isOwnerOrAdmin]
  | .get => [.isAuthenticated]

/-- Serializer validation of a claim update: PUT (`partial=False`) requires
the `item` field (required: no default, not read-only); a present `item` must
resolve; a present `status` must be a valid choice. -/
def validClaimUpdate (db : AppDb) (isPatch : Bool) (p : ClaimPayload) : Bool :=
  (isPatch || p.item.isSome) &&
    (match p.item with
      | some iid => db.items.any fun it => it.id == iid
      | none => true) &&
    (match p.status with
      | some s => claimsChoices.contains s
      | none => true)

/-- Applying a validated claim update to the instance: validated fields are
set, absent ones keep the instance's values. -/
def applyClaimUpdate (c : Claims) (p : ClaimPayload) : Claims :=
  { c with
    item := p.item.getD c.item
    status := p.status.getD c.status
    description := p.description.getD c.description }

/-- A detail request `/claims/{pk}/`.  `ClaimsViewSet` mixes in destroy,
update and list only, so GET (`retrieve`) is not routed: 405.  Otherwise:
view permissions (403), object lookup in the scoped queryset (404), object
permissions (403), then the action. -/
def claimDetail (db : AppDb) (user : Nat) (staff : Bool) (m : Method) (pk : Nat)
    (p : ClaimPayload) : Nat × AppDb :=
  if m = .get then (405, db)
  else
    let perms := claims_get_permissions m p
    if !(perms.all (hasPermission staff)) then (403, db)
    else
      match (claims_get_queryset db user staff).find? (fun c => c.id == pk) with
      | none => (404, db)
      | some c =>
        if !(perms.all (hasObjectPermission user staff c.user)) then (403, db)
        else
          match m with
          | .get => (405, db)
          | .delete => (204, { db with claims := db.claims.filter fun x => !(x.id == pk) })
          | .put | .patch =>
            if validClaimUpdate db (m = .patch) p then
              (200, { db with
                claims := db.claims.map fun x =>
                  if x.id == pk then applyClaimUpdate x p else x })
            else (400, db)

/-- A detail request `/tags/{pk}/`.  `TagViewSet` mixes in destroy, update
and list only, so GET (`retrieve`) is not routed: 405.
`permission_classes = [IsAuthenticated]` passes for every authenticated user.
`TagSerializer`'s only writable field is `name` (required on PUT); deleting a
tag removes it from every item's association list. -/
def tagDetail (db : AppDb) (user : Nat) (staff : Bool) (m : Method) (pk : Nat)
    (pname : Option String) : Nat × AppDb :=
  if m = .get then (405, db)
  else
    match (tag_get_queryset db user false).find? (fun t => t.id == pk) with
    | none => (404, db)
    | some _ =>
      match m with
      | .get => (405, db)
      | .delete =>
        (204, { db with
          tags := db.tags.filter fun x => !(x.id == pk)
          items := db.items.map fun it => { it with tags := it.tags.filter fun t => !(t == pk) } })
      | .put | .patch =>
        if m = .put && pname.isNone then (400, db)
        else
          (200, { db with
            tags := db.tags.map fun x =>
              if x.id == pk then { x with name := pname.getD x.name } else x })

/-- Update payload of an item detail request, as validated data: absent
fields were not posted.  `tags` carries the posted tag names. -/
structure ItemPayload where
  title : Option String
  description : Option (List Char)
  status : Option String
  category : Option String
  location_last_seen : Option String
  date_lost : Option String
  tags : Option (List String)
deriving DecidableEq, Repr

/-- Serializer validation of an item update: PUT (`partial=False`) requires
the fields without defaults (`title`, `category`, `location_last_seen`,
`date_lost`). -/
def validItemUpdate (isPatch : Bool) (p : ItemPayload) : Bool :=
  isPatch ||
    (p.title.isSome && p.category.isSome && p.location_last_seen.isSome &&
      p.date_lost.isSome)

/-- Embeds `ItemSerializer.update`: when `tags` was posted, clear the association and
get-or-create each name; set the other validated fields; save.  `none` models
the unhandled `MultipleObjectsReturned`. -/
def itemSerializerUpdate (db : AppDb) (user : Nat) (it : Item) (p : ItemPayload) :
    Option (AppDb × Item) :=
  let withTags : Option (List Tag × List Nat) :=
    match p.tags with
    | none => some (db.tags, it.tags)
    | some names =>
      match get_or_create_tags user names db.tags (freshTagId db) [] with
      | none => none
      | some (tags', _, assoc) => some (tags', assoc)
  match withTags with
  | none => none
  | some (tags', assoc) =>
    let it' : Item :=
      { it with
        title := p.title.getD it.title
        description := p.description.getD it.description
        status := p.status.getD it.status
        category := p.category.getD it.category
        location_last_seen := p.location_last_seen.getD it.location_last_seen
        date_lost := p.date_lost.getD it.date_lost
        tags := assoc }
    some ({ db with
      tags := tags'
      items := db.items.map fun x => if x.id == it.id then it' else x }, it')

/-- A detail request `/items/{pk}/`.  `ItemViewSet` is a full `ModelViewSet`,
so all four methods are routed; `permission_classes = [IsAuthenticated]`
passes for every authenticated user, so the outcome is decided by the scoped
queryset lookup.  Deleting an item cascades to the claims referencing it
(`on_delete=CASCADE`). -/
def itemDetail (db : AppDb) (user : Nat) (staff : Bool) (m : Method) (pk : Nat)
    (tagsParam : Option (List Nat)) (p : ItemPayload) : Nat × AppDb :=
  match (item_get_queryset db user tagsParam).find? (fun it => it.id == pk) with
  | none => (404, db)
  | some it =>
    match m with
    | .get => (200, db)
    | .delete =>
      (204, { db with
        items := db.items.filter fun x => !(x.id == pk)
        claims := db.claims.filter fun c => !(c.item == pk) })
    | .put | .patch =>
      if validItemUpdate (m = .patch) p then
        match itemSerializerUpdate db user it p with
        | none => (500, db)
        | some (db', _) => (200, db')
      else (400, db)

def witClaimC4 : Claims := ⟨1, 1, 1, "pending", "abcd".data⟩

def witItemC4 : Item := ⟨1, 1, "t", "zz".data, "lost", "c", "l", "d", []⟩

def itemC8a : Item :=
  ⟨1, 1, "item1", "A black oppo A22 with cracked screen".data, "lost", "Unknown", "Unknown", "d", []⟩

def itemC8b : Item :=
  ⟨2, 1, "item2", "A white Iphone 13 with no issues".data, "lost", "Unknown", "Unknown", "d", []⟩

def claimC8 : Claims := ⟨1, 1, 1, "pending", "Black oppo A22 cracked screen found".data⟩

def dbC9 : AppDb :=
  ⟨[⟨10, 2, "phone", "abcd".data, "lost", "c", "l", "d", []⟩,
    ⟨11, 1, "own", "qqqq".data, "lost", "c", "l", "d", []⟩], [], []⟩

def pC9 : ClaimCreate := ⟨11, none, "abcd".data⟩

def dbC1 : AppDb := ⟨[⟨10, 1, "t", [], "lost", "c", "l", "d", []⟩], [], [⟨5, 1, 10, "pending", []⟩]⟩

def pPutC1 : ClaimPayload := ⟨some 10, some "approved", none⟩

def dbC5 : AppDb :=
  ⟨[⟨10, 1, "i", [], "lost", "c", "l", "d", [7]⟩],
   [⟨7, 1, "work"⟩],
   [⟨5, 1, 10, "pending", []⟩]⟩

def dbC6 : AppDb := ⟨[], [⟨1, 7, "a"⟩], []⟩

def pC6 : ItemCreate := ⟨"phone", "desc".data, none, "cat", "loc", "2024-01-01", ["a", "b"]⟩

/-- Two items that agree on every field except that their descriptions differ
only in letter case. -/
def caseVariantItem (x y : Item) : Prop :=
  x.id = y.id ∧ x.user = y.user ∧ x.title = y.title ∧
    strLower x.description = strLower y.description ∧
    x.status = y.status ∧ x.category = y.category ∧
    x.location_last_seen = y.location_last_seen ∧ x.date_lost = y.date_lost ∧
    x.tags = y.tags

/-- Relate two optional results pointwise. -/
def optionRel (r : Item → Item → Prop) : Option Item → Option Item → Prop
  | none, none => True
  | some a, some b => r a b
  | _, _ => False

/-- The claim with its description lowercased. -/
def lowerClaim (c : Claims) : Claims := { c with description := strLower c.description }

/-- An item with its description lowercased. -/
def lowerItem (it : Item) : Item := { it with description := strLower it.description }

def claimC7 : Claims := ⟨1, 1, 1, "pending", "LOST Phone".data⟩

def claimC7v : Claims := ⟨1, 1, 1, "pending", "lost phone".data⟩

def itemC7 : Item := ⟨3, 1, "t", "Lost Phone".data, "lost", "c", "l", "d", []⟩

def itemC7v : Item := ⟨3, 1, "t", "lost PHONE".data, "lost", "c", "l", "d", []⟩

/-- Character `c` is not purged from `b2j s` (not autojunk-popular in `s`). -/
def okP (s : List Char) (c : Char) : Prop :=
  ¬(200 ≤ s.length ∧ s.length / 100 + 1 < s.count c)

instance (s : List Char) (c : Char) : Decidable (okP s c) := by
  unfold okP
  infer_instance

/-- Length of the longest suffix of `s.take (i+1)` made of non-popular
characters. -/
def runLen (s : List Char) : Nat → Nat
  | 0 => if okP s (s.getD 0 ' ') then 1 else 0
  | i + 1 => if okP s (s.getD (i + 1) ' ') then runLen s i + 1 else 0

/-- A dictionary entry `j ↦ m`: the `m` characters ending at column `j` equal
the `m` characters ending at row `last`, and all of them are non-popular. -/
def chainOk (s : List Char) (last j m : Nat) : Prop :=
  m ≤ j + 1 ∧ m ≤ last + 1 ∧
    ∀ t < m, s.getD (j - t) ' ' = s.getD (last - t) ' ' ∧ okP s (s.getD (j - t) ' ')

/-- Invariant of `j2len` before row `i₀` runs (rows `0 … i₀-1` processed):
negative keys are absent, every entry is a chain ending at row `i₀ - 1`, and
the diagonal entry is exactly the non-popular run length. -/
def DictInv (s : List Char) (i₀ : Nat) (d : Int → Nat) : Prop :=
  (∀ x : Int, x < 0 → d x = 0) ∧
  (∀ j : Nat, d j ≠ 0 → 1 ≤ i₀ ∧ j < s.length ∧ chainOk s (i₀ - 1) j (d j)) ∧
  (1 ≤ i₀ → d ((i₀ : Int) - 1) = runLen s (i₀ - 1))

/-- Invariant of the running best before row `i₀` runs: it is diagonal, fits
in the processed rows, and dominates every non-popular run seen so far. -/
def BestInv (s : List Char) (i₀ : Nat) (b : Best) : Prop :=
  b.besti = b.bestj ∧ b.besti + b.bestsize ≤ i₀ ∧ ∀ i' < i₀, runLen s i' ≤ b.bestsize

/-- The maximum similarity ratio the scan sees (`0` for an empty sequence). -/
def maxRatio (c : Claims) (items : List Item) : ℚ :=
  (items.map (claimItemRatio c)).foldr max 0

def itemC2a : Item := ⟨1, 1, "first", "a lost phone".data, "lost", "c", "l", "d", []⟩

def itemC2b : Item := ⟨2, 1, "second", "a lost phone".data, "lost", "c", "l", "d", []⟩

def claimC2 : Claims := ⟨1, 1, 1, "pending", "a lost phone".data⟩

/-- Concrete database for the `claims_create_status_writable` witness. -/
def dbC10 : AppDb := ⟨[⟨3, 2, "bag", "a red bag".data, "lost", "c", "l", "d", []⟩], [], []⟩

/-- Concrete creation payload carrying an explicit valid `status`. -/
def pC10 : ClaimCreate := ⟨3, some "approved", "my bag".data⟩

/-! ## Theorems -/

theorem match_eq_foldl (c : Claims) (items : List Item) :
    match_claim_to_item c items = (items.foldl (matchStep c) (none, 0)).1 := rfl

theorem matchStep_skip (c : Claims) (acc : Option Item × ℚ) (it : Item)
    (h : claimItemRatio c it ≤ 6 / 10) : matchStep c acc it = acc := by
  unfold matchStep
  rw [if_neg]
  rintro ⟨-, h2⟩
  exact absurd h2 (not_lt.mpr h)

theorem foldl_keep (c : Claims) :
    ∀ (its : List Item) (acc : Option Item × ℚ),
      (∀ it ∈ its, claimItemRatio c it ≤ 6 / 10) → its.foldl (matchStep c) acc = acc
  | [], _, _ => rfl
  | it :: rest, acc, h => by
    rw [List.foldl_cons, matchStep_skip c acc it (h it (List.mem_cons_self it rest)),
      foldl_keep c rest acc fun x hx => h x (List.mem_cons_of_mem _ hx)]

/-- C4 -/
theorem matcher_no_match (c : Claims) (items : List Item)
    (h : ∀ it ∈ items, claimItemRatio c it ≤ 6 / 10) :
    match_claim_to_item c items = none := by
  rw [match_eq_foldl, foldl_keep c items _ h]

/-- Witness for C4 at a concrete claim and item list. -/
theorem matcher_no_match_witness :
    (∀ it ∈ [witItemC4], claimItemRatio witClaimC4 it ≤ 6 / 10) ∧
      match_claim_to_item witClaimC4 [witItemC4] = none := by
  have h : ∀ it ∈ [witItemC4], claimItemRatio witClaimC4 it ≤ 6 / 10 := by
    intro it hit
    rw [List.mem_singleton] at hit
    subst hit
    show claimItemRatio witClaimC4 witItemC4 ≤ 6 / 10
    have : claimItemRatio witClaimC4 witItemC4 = 0 := by with_unfolding_all rfl
    rw [this]
    norm_num
  exact ⟨h, matcher_no_match witClaimC4 [witItemC4] h⟩

/-- C8 -/
theorem matcher_selects_oppo :
    match_claim_to_item claimC8 [itemC8a, itemC8b] = some itemC8a ∧
      match_claim_to_item claimC8 [itemC8b, itemC8a] = some itemC8a :=
  ⟨by with_unfolding_all rfl, by with_unfolding_all rfl⟩

/-- C3 -/
theorem perform_create_item_overwrite (db : AppDb) (user : Nat) (p : ClaimCreate) :
    ((perform_create db user p).2.item =
      match match_claim_to_item
          ⟨freshClaimId db, user, p.item, p.status.getD "pending", p.description⟩
          db.items with
        | some m => m.id
        | none => p.item)
    ∧ (perform_create db user p).2 ∈ (perform_create db user p).1.claims := by
  unfold perform_create
  cases h : match_claim_to_item
      ⟨freshClaimId db, user, p.item, p.status.getD "pending", p.description⟩ db.items with
  | none =>
    refine ⟨by simp [h], ?_⟩
    simp [h]
  | some m =>
    refine ⟨by simp [h], ?_⟩
    simp only [h]
    refine List.mem_map.mpr ⟨⟨freshClaimId db, user, p.item, p.status.getD "pending",
      p.description⟩, ?_, ?_⟩
    · exact List.mem_append_right _ (List.mem_singleton_self _)
    · simp

/-- C9 -/
theorem matcher_crosses_user_scope :
    (perform_create dbC9 1 pC9).2.item = 10 ∧
      (perform_create dbC9 1 pC9).2.user = 1 ∧
      ((dbC9.items.find? fun it => it.id == 10).map Item.user = some 2) ∧
      ((item_get_queryset dbC9 1 none).all fun it => !(it.id == 10)) = true :=
  ⟨by with_unfolding_all rfl, by with_unfolding_all rfl, by decide, by decide⟩

theorem perform_create_status (db : AppDb) (user : Nat) (p : ClaimCreate) :
    (perform_create db user p).2.status = p.status.getD "pending" := by
  unfold perform_create
  cases h : match_claim_to_item
      ⟨freshClaimId db, user, p.item, p.status.getD "pending", p.description⟩ db.items with
  | none => simp [h]
  | some m => simp [h]

/-- C10 -/
theorem claims_create_status_writable (db : AppDb) (user : Nat) (p : ClaimCreate)
    (hitem : (db.items.any fun it => it.id == p.item) = true)
    (hstat : ∀ s, p.status = some s → s ∈ claimsChoices) :
    (claims_create db user false p).1 = 201 ∧
      (claims_create db user false p).2.2.map Claims.status =
        some (p.status.getD "pending") := by
  have hv : validClaimCreate db p = true := by
    unfold validClaimCreate
    rw [hitem, Bool.true_and]
    cases hs : p.status with
    | none => rfl
    | some s =>
      have hmem := hstat s hs
      simpa [List.contains] using List.elem_eq_true_of_mem hmem
  unfold claims_create
  simp [hv, claims_get_permissions_create, hasPermission, perform_create_status]

/-- C1 counterexample: the non-staff owner of claim 5 sends PUT with a status
in the payload; the request succeeds (200) and the status changes. -/
theorem claim_put_status_escape :
    (claimDetail dbC1 1 false .put 5 pPutC1).1 = 200 ∧
      (claimDetail dbC1 1 false .put 5 pPutC1).2.claims.map Claims.status = ["approved"] := by
  decide

/-- C1 amended -/
theorem claim_patch_status_forbidden (db : AppDb) (user pk : Nat) (p : ClaimPayload)
    (hs : statusTruthy p = true) :
    claimDetail db user false .patch pk p = (403, db) := by
  unfold claimDetail claims_get_permissions
  simp [hs, hasPermission]

/-- Witness for `claim_patch_status_forbidden`. -/
theorem claim_patch_status_forbidden_witness :
    statusTruthy ⟨none, some "approved", none⟩ = true ∧
      claimDetail dbC1 1 false .patch 5 ⟨none, some "approved", none⟩ = (403, dbC1) :=
  ⟨by decide, claim_patch_status_forbidden dbC1 1 5 _ (by decide)⟩

theorem mem_item_queryset {db : AppDb} {u : Nat} {tp : Option (List Nat)} {it : Item}
    (h : it ∈ item_get_queryset db u tp) : it ∈ db.items ∧ it.user = u := by
  unfold item_get_queryset at h
  simp only at h
  rcases List.mem_filter.mp h with ⟨h1, h2⟩
  refine ⟨?_, by simpa using h2⟩
  cases tp with
  | none => exact h1
  | some ids => exact (List.mem_filter.mp h1).1

theorem mem_tag_queryset {db : AppDb} {u : Nat} {ao : Bool} {t : Tag}
    (h : t ∈ tag_get_queryset db u ao) : t ∈ db.tags ∧ t.user = u := by
  unfold tag_get_queryset at h
  simp only at h
  rcases List.mem_filter.mp h with ⟨h1, h2⟩
  refine ⟨?_, by simpa using h2⟩
  cases ao with
  | false => exact h1
  | true => exact (List.mem_filter.mp h1).1

theorem mem_claims_queryset {db : AppDb} {u : Nat} {c : Claims}
    (h : c ∈ claims_get_queryset db u false) : c ∈ db.claims ∧ c.user = u := by
  unfold claims_get_queryset at h
  simp only [if_neg (by simp : ¬(false = true))] at h
  rcases List.mem_filter.mp h with ⟨h1, h2⟩
  exact ⟨h1, by simpa using h2⟩

theorem item_queryset_misses {db : AppDb} {u pk : Nat} {tp : Option (List Nat)}
    (hit : ∀ it ∈ db.items, it.id = pk → it.user ≠ u) :
    (item_get_queryset db u tp).find? (fun it => it.id == pk) = none := by
  rw [List.find?_eq_none]
  intro it hmem
  obtain ⟨hin, huser⟩ := mem_item_queryset hmem
  simp only [beq_iff_eq]
  intro hid
  exact hit it hin hid huser

theorem tag_queryset_misses {db : AppDb} {u pk : Nat} {ao : Bool}
    (ht : ∀ t ∈ db.tags, t.id = pk → t.user ≠ u) :
    (tag_get_queryset db u ao).find? (fun t => t.id == pk) = none := by
  rw [List.find?_eq_none]
  intro t hmem
  obtain ⟨hin, huser⟩ := mem_tag_queryset hmem
  simp only [beq_iff_eq]
  intro hid
  exact ht t hin hid huser

theorem claims_queryset_misses {db : AppDb} {u pk : Nat}
    (hc : ∀ c ∈ db.claims, c.id = pk → c.user ≠ u) :
    (claims_get_queryset db u false).find? (fun c => c.id == pk) = none := by
  rw [List.find?_eq_none]
  intro c hmem
  obtain ⟨hin, huser⟩ := mem_claims_queryset hmem
  simp only [beq_iff_eq]
  intro hid
  exact hc c hin hid huser

/-- C5 amended: for a non-staff requester and a record owned by someone else,
items answer 404 everywhere; tags and claims answer 404 on the routed
update/delete actions, 405 on the unrouted GET, and a claim PATCH whose
payload carries a truthy `status` is rejected 403 by the admin-only
permission before the lookup.  The database is unchanged in every case. -/
theorem cross_user_access (db : AppDb) (u pki pkt pkc : Nat) (tp : Option (List Nat))
    (ip : ItemPayload) (tn : Option String) (cp : ClaimPayload)
    (hit : ∀ it ∈ db.items, it.id = pki → it.user ≠ u)
    (ht : ∀ t ∈ db.tags, t.id = pkt → t.user ≠ u)
    (hc : ∀ c ∈ db.claims, c.id = pkc → c.user ≠ u) :
    (∀ m, itemDetail db u false m pki tp ip = (404, db))
    ∧ tagDetail db u false .get pkt tn = (405, db)
    ∧ tagDetail db u false .put pkt tn = (404, db)
    ∧ tagDetail db u false .patch pkt tn = (404, db)
    ∧ tagDetail db u false .delete pkt tn = (404, db)
    ∧ claimDetail db u false .get pkc cp = (405, db)
    ∧ claimDetail db u false .put pkc cp = (404, db)
    ∧ claimDetail db u false .delete pkc cp = (404, db)
    ∧ (statusTruthy cp = false → claimDetail db u false .patch pkc cp = (404, db))
    ∧ (statusTruthy cp = true → claimDetail db u false .patch pkc cp = (403, db)) := by
  have hfi := @item_queryset_misses db u pki tp hit
  have hft := @tag_queryset_misses db u pkt false ht
  have hfc := claims_queryset_misses hc
  refine ⟨?_, ?_, ?_, ?_, ?_, ?_, ?_, ?_, ?_, ?_⟩
  · intro m
    unfold itemDetail
    rw [hfi]
  · unfold tagDetail
    simp
  · unfold tagDetail
    simp [hft]
  · unfold tagDetail
    simp [hft]
  · unfold tagDetail
    simp [hft]
  · unfold claimDetail
    simp
  · unfold claimDetail
    simp [claims_get_permissions, hasPermission, hfc]
  · unfold claimDetail
    simp [claims_get_permissions, hasPermission, hfc]
  · intro hs
    unfold claimDetail
    simp [claims_get_permissions, hasPermission, hs, hfc]
  · intro hs
    unfold claimDetail
    simp [claims_get_permissions, hasPermission, hs]

/-- C5 counterexample: user 2 (non-staff) GETs user 1's tag 7; the response is
405 Method Not Allowed (no retrieve route), not the claimed 404. -/
theorem cross_user_tag_retrieve_405 :
    (tagDetail dbC5 2 false .get 7 none).1 = 405 ∧
      (tagDetail dbC5 2 false .get 7 none).1 ≠ 404 := by
  decide

/-- Witness for `cross_user_access` at a concrete database. -/
theorem cross_user_access_witness :
    (∀ it ∈ dbC5.items, it.id = 10 → it.user ≠ 2) ∧
      (∀ t ∈ dbC5.tags, t.id = 7 → t.user ≠ 2) ∧
      (∀ c ∈ dbC5.claims, c.id = 5 → c.user ≠ 2) ∧
      itemDetail dbC5 2 false .delete 10 none ⟨none, none, none, none, none, none, none⟩ =
        (404, dbC5) ∧
      tagDetail dbC5 2 false .get 7 none = (405, dbC5) ∧
      tagDetail dbC5 2 false .delete 7 none = (404, dbC5) ∧
      claimDetail dbC5 2 false .put 5 ⟨some 10, none, none⟩ = (404, dbC5) ∧
      claimDetail dbC5 2 false .patch 5 ⟨none, some "approved", none⟩ = (403, dbC5) := by
  have h := cross_user_access dbC5 2 10 7 5 none ⟨none, none, none, none, none, none, none⟩
    none ⟨some 10, none, none⟩ (by decide) (by decide) (by decide)
  have h2 := cross_user_access dbC5 2 10 7 5 none ⟨none, none, none, none, none, none, none⟩
    none ⟨none, some "approved", none⟩ (by decide) (by decide) (by decide)
  exact ⟨by decide, by decide, by decide, h.1 .delete, h.2.1, h.2.2.2.2.1, h.2.2.2.2.2.2.1,
    h2.2.2.2.2.2.2.2.2.2 (by decide)⟩

theorem le_foldr_max : ∀ (l : List Nat) (x : Nat), x ∈ l → x ≤ l.foldr max 0
  | a :: l, x, h => by
    rcases List.mem_cons.mp h with h | h
    · subst h
      exact le_max_left _ _
    · exact le_trans (le_foldr_max l x h) (le_max_right _ _)

theorem tag_id_lt_fresh {db : AppDb} {t : Tag} (h : t ∈ db.tags) : t.id < freshTagId db := by
  have : t.id ≤ (db.tags.map Tag.id).foldr max 0 :=
    le_foldr_max _ _ (List.mem_map_of_mem Tag.id h)
  unfold freshTagId
  omega

theorem list_len_le_one {α : Type} : ∀ {l : List α}, l.length ≤ 1 → l = [] ∨ ∃ x, l = [x]
  | [], _ => Or.inl rfl
  | [x], _ => Or.inr ⟨x, rfl⟩
  | _ :: _ :: _, h => by simp at h

theorem gct_create (T : List Tag) (u nid : Nat) (name : String)
    (h : T.filter (fun t => t.user == u && t.name == name) = []) :
    get_or_create_tag T u nid name = some (⟨nid, u, name⟩, T ++ [⟨nid, u, name⟩], nid + 1) := by
  unfold get_or_create_tag
  rw [h]

theorem gct_reuse (T : List Tag) (u nid : Nat) (name : String) (t : Tag)
    (h : T.filter (fun t => t.user == u && t.name == name) = [t]) :
    get_or_create_tag T u nid name = some (t, T, nid) := by
  unfold get_or_create_tag
  rw [h]

theorem gcts_cons (u : Nat) (n : String) (ns : List String) (T : List Tag)
    (nid : Nat) (assoc : List Nat) (t : Tag) (T' : List Tag) (nid' : Nat)
    (h : get_or_create_tag T u nid n = some (t, T', nid')) :
    get_or_create_tags u (n :: ns) T nid assoc =
      get_or_create_tags u ns T' nid'
        (if assoc.contains t.id then assoc else assoc ++ [t.id]) := by
  rw [show get_or_create_tags u (n :: ns) T nid assoc =
      match get_or_create_tag T u nid n with
      | none => none
      | some (t, tags', nextId') =>
        get_or_create_tags u ns tags' nextId'
          (if assoc.contains t.id then assoc else assoc ++ [t.id]) from rfl, h]

theorem mem_filter_tag {T : List Tag} {u : Nat} {name : String} {t : Tag} :
    t ∈ T.filter (fun t => t.user == u && t.name == name) ↔
      t ∈ T ∧ t.user = u ∧ t.name = name := by
  simp [List.mem_filter]

/-- C6: creating an item with tag names `a` and `b` yields exactly two
associations; an existing tag of the requesting user with a matching name is
reused without creating a duplicate, otherwise a fresh tag of that user is
created and associated.  (`hnodup` is primary-key uniqueness; `hwa`/`hwb` say
the user has at most one tag per name, the invariant `get_or_create` needs to
not raise `MultipleObjectsReturned`.) -/
theorem item_create_two_tags (db : AppDb) (u : Nat) (p : ItemCreate)
    (hp : p.tags = ["a", "b"])
    (hnodup : (db.tags.map Tag.id).Nodup)
    (hwa : (db.tags.filter fun t => t.user == u && t.name == "a").length ≤ 1)
    (hwb : (db.tags.filter fun t => t.user == u && t.name == "b").length ≤ 1) :
    ∃ db' it, item_create db u p = some (db', it)
      ∧ it.tags.length = 2
      ∧ ∀ name ∈ p.tags,
          ((∃ t ∈ db.tags, t.user = u ∧ t.name = name) →
            (∃ t ∈ db.tags, t.user = u ∧ t.name = name ∧ t.id ∈ it.tags)
              ∧ (db'.tags.filter fun x => x.user == u && x.name == name).length =
                (db.tags.filter fun x => x.user == u && x.name == name).length)
          ∧ ((¬ ∃ t ∈ db.tags, t.user = u ∧ t.name = name) →
            ∃ t ∈ db'.tags, t.user = u ∧ t.name = name ∧ t.id ∈ it.tags ∧ t ∉ db.tags) := by
  have hnotmem_fresh : ∀ (x : Tag), freshTagId db ≤ x.id → x ∉ db.tags := by
    intro x hx hmem
    exact absurd (tag_id_lt_fresh hmem) (by omega)
  have hnomem_of_nilfilter : ∀ (name : String),
      db.tags.filter (fun t => t.user == u && t.name == name) = [] →
        ¬ ∃ t ∈ db.tags, t.user = u ∧ t.name = name := by
    rintro name hnil ⟨t, ht, hu, hn⟩
    have : t ∈ db.tags.filter (fun t => t.user == u && t.name == name) :=
      mem_filter_tag.mpr ⟨ht, hu, hn⟩
    rw [hnil] at this
    exact absurd this (List.not_mem_nil t)
  rcases list_len_le_one hwa with hFa | ⟨ta, hFa⟩
  · -- "a" has no existing tag: it is created as ⟨freshTagId db, u, "a"⟩
    have hfb1 : ∀ L : List Tag,
        (L ++ [(⟨freshTagId db, u, "a"⟩ : Tag)]).filter (fun t => t.user == u && t.name == "b") =
          L.filter (fun t => t.user == u && t.name == "b") := by
      intro L
      rw [List.filter_append]
      simp
    rcases list_len_le_one hwb with hFb | ⟨tb, hFb⟩
    · -- both created
      have hrun : get_or_create_tags u ["a", "b"] db.tags (freshTagId db) [] =
          some (db.tags ++ [⟨freshTagId db, u, "a"⟩] ++ [⟨freshTagId db + 1, u, "b"⟩],
            freshTagId db + 2, [freshTagId db, freshTagId db + 1]) := by
        rw [gcts_cons u "a" ["b"] _ _ _ _ _ _ (gct_create _ u _ "a" hFa)]
        rw [List.contains_nil, if_neg (by simp), List.nil_append]
        rw [gcts_cons u "b" [] _ _ _ _ _ _
          (gct_create _ u _ "b" (by rw [hfb1]; exact hFb))]
        have h2 : ([freshTagId db] : List Nat).contains (freshTagId db + 1) = false := by
          simp
        rw [h2, if_neg (by simp)]
        rfl
      have hic : item_create db u p = some
          (⟨db.items ++ [⟨freshItemId db, u, p.title, p.description, p.status.getD "lost",
              p.category, p.location_last_seen, p.date_lost,
              [freshTagId db, freshTagId db + 1]⟩],
            db.tags ++ [⟨freshTagId db, u, "a"⟩] ++ [⟨freshTagId db + 1, u, "b"⟩],
            db.claims⟩,
           ⟨freshItemId db, u, p.title, p.description, p.status.getD "lost",
              p.category, p.location_last_seen, p.date_lost,
              [freshTagId db, freshTagId db + 1]⟩) := by
        unfold item_create
        rw [hp, hrun]
      refine ⟨_, _, hic, by simp, ?_⟩
      intro name hname
      rw [hp] at hname
      rcases List.mem_pair.mp hname with h | h <;> subst h
      · refine ⟨fun hex => absurd hex (hnomem_of_nilfilter _ hFa),
          fun _ => ⟨⟨freshTagId db, u, "a"⟩, ?_, rfl, rfl, ?_, ?_⟩⟩
        · simp
        · simp
        · exact hnotmem_fresh _ (by simp)
      · refine ⟨fun hex => absurd hex (hnomem_of_nilfilter _ hFb),
          fun _ => ⟨⟨freshTagId db + 1, u, "b"⟩, ?_, rfl, rfl, ?_, ?_⟩⟩
        · simp
        · simp
        · exact hnotmem_fresh _ (by simp)
    · -- "a" created, "b" reused
      have htb := mem_filter_tag.mp (hFb ▸ List.mem_singleton_self tb)
      have htbid := tag_id_lt_fresh htb.1
      have hrun : get_or_create_tags u ["a", "b"] db.tags (freshTagId db) [] =
          some (db.tags ++ [⟨freshTagId db, u, "a"⟩], freshTagId db + 1,
            [freshTagId db, tb.id]) := by
        rw [gcts_cons u "a" ["b"] _ _ _ _ _ _ (gct_create _ u _ "a" hFa)]
        rw [List.contains_nil, if_neg (by simp), List.nil_append]
        rw [gcts_cons u "b" [] _ _ _ _ _ _
          (gct_reuse _ u _ "b" tb (by rw [hfb1]; exact hFb))]
        have h2 : ([freshTagId db] : List Nat).contains tb.id = false := by
          simp
          omega
        rw [h2, if_neg (by simp)]
        rfl
      have hic : item_create db u p = some
          (⟨db.items ++ [⟨freshItemId db, u, p.title, p.description, p.status.getD "lost",
              p.category, p.location_last_seen, p.date_lost, [freshTagId db, tb.id]⟩],
            db.tags ++ [⟨freshTagId db, u, "a"⟩],
            db.claims⟩,
           ⟨freshItemId db, u, p.title, p.description, p.status.getD "lost",
              p.category, p.location_last_seen, p.date_lost, [freshTagId db, tb.id]⟩) := by
        unfold item_create
        rw [hp, hrun]
      refine ⟨_, _, hic, by simp, ?_⟩
      intro name hname
      rw [hp] at hname
      rcases List.mem_pair.mp hname with h | h <;> subst h
      · refine ⟨fun hex => absurd hex (hnomem_of_nilfilter _ hFa),
          fun _ => ⟨⟨freshTagId db, u, "a"⟩, ?_, rfl, rfl, ?_, ?_⟩⟩
        · simp
        · simp
        · exact hnotmem_fresh _ (by simp)
      · refine ⟨fun _ => ⟨⟨tb, htb.1, htb.2.1, htb.2.2, by simp⟩, ?_⟩,
          fun hex => absurd ⟨tb, htb.1, htb.2.1, htb.2.2⟩ hex⟩
        show ((db.tags ++ [(⟨freshTagId db, u, "a"⟩ : Tag)]).filter
            (fun x => x.user == u && x.name == "b")).length = _
        rw [hfb1]
  · -- "a" reused
    have hta := mem_filter_tag.mp (hFa ▸ List.mem_singleton_self ta)
    have htaid := tag_id_lt_fresh hta.1
    rcases list_len_le_one hwb with hFb | ⟨tb, hFb⟩
    · -- "a" reused, "b" created
      have hrun : get_or_create_tags u ["a", "b"] db.tags (freshTagId db) [] =
          some (db.tags ++ [⟨freshTagId db, u, "b"⟩], freshTagId db + 1,
            [ta.id, freshTagId db]) := by
        rw [gcts_cons u "a" ["b"] _ _ _ _ _ _ (gct_reuse _ u _ "a" ta hFa)]
        rw [List.contains_nil, if_neg (by simp), List.nil_append]
        rw [gcts_cons u "b" [] _ _ _ _ _ _ (gct_create _ u _ "b" hFb)]
        have h2 : ([ta.id] : List Nat).contains (freshTagId db) = false := by
          simp
          omega
        rw [h2, if_neg (by simp)]
        rfl
      have hic : item_create db u p = some
          (⟨db.items ++ [⟨freshItemId db, u, p.title, p.description, p.status.getD "lost",
              p.category, p.location_last_seen, p.date_lost, [ta.id, freshTagId db]⟩],
            db.tags ++ [⟨freshTagId db, u, "b"⟩],
            db.claims⟩,
           ⟨freshItemId db, u, p.title, p.description, p.status.getD "lost",
              p.category, p.location_last_seen, p.date_lost, [ta.id, freshTagId db]⟩) := by
        unfold item_create
        rw [hp, hrun]
      have hfa1 : (db.tags ++ [(⟨freshTagId db, u, "b"⟩ : Tag)]).filter
          (fun t => t.user == u && t.name == "a") =
            db.tags.filter (fun t => t.user == u && t.name == "a") := by
        rw [List.filter_append]
        simp
      refine ⟨_, _, hic, by simp, ?_⟩
      intro name hname
      rw [hp] at hname
      rcases List.mem_pair.mp hname with h | h <;> subst h
      · refine ⟨fun _ => ⟨⟨ta, hta.1, hta.2.1, hta.2.2, by simp⟩, ?_⟩,
          fun hex => absurd ⟨ta, hta.1, hta.2.1, hta.2.2⟩ hex⟩
        show ((db.tags ++ [(⟨freshTagId db, u, "b"⟩ : Tag)]).filter
            (fun x => x.user == u && x.name == "a")).length = _
        rw [hfa1]
      · refine ⟨fun hex => absurd hex (hnomem_of_nilfilter _ hFb),
          fun _ => ⟨⟨freshTagId db, u, "b"⟩, ?_, rfl, rfl, ?_, ?_⟩⟩
        · simp
        · simp
        · exact hnotmem_fresh _ (by simp)
    · -- both reused
      have htb := mem_filter_tag.mp (hFb ▸ List.mem_singleton_self tb)
      have hne : ta ≠ tb := by
        intro h
        have := hta.2.2
        rw [h, htb.2.2] at this
        exact absurd this (by decide)
      have hidne : ta.id ≠ tb.id := by
        intro h
        exact hne (List.inj_on_of_nodup_map hnodup hta.1 htb.1 h)
      have hrun : get_or_create_tags u ["a", "b"] db.tags (freshTagId db) [] =
          some (db.tags, freshTagId db, [ta.id, tb.id]) := by
        rw [gcts_cons u "a" ["b"] _ _ _ _ _ _ (gct_reuse _ u _ "a" ta hFa)]
        rw [List.contains_nil, if_neg (by simp), List.nil_append]
        rw [gcts_cons u "b" [] _ _ _ _ _ _ (gct_reuse _ u _ "b" tb hFb)]
        have h2 : ([ta.id] : List Nat).contains tb.id = false := by
          simp
          omega
        rw [h2, if_neg (by simp)]
        rfl
      have hic : item_create db u p = some
          (⟨db.items ++ [⟨freshItemId db, u, p.title, p.description, p.status.getD "lost",
              p.category, p.location_last_seen, p.date_lost, [ta.id, tb.id]⟩],
            db.tags, db.claims⟩,
           ⟨freshItemId db, u, p.title, p.description, p.status.getD "lost",
              p.category, p.location_last_seen, p.date_lost, [ta.id, tb.id]⟩) := by
        unfold item_create
        rw [hp, hrun]
      refine ⟨_, _, hic, by simp, ?_⟩
      intro name hname
      rw [hp] at hname
      rcases List.mem_pair.mp hname with h | h <;> subst h
      · exact ⟨fun _ => ⟨⟨ta, hta.1, hta.2.1, hta.2.2, by simp⟩, rfl⟩,
          fun hex => absurd ⟨ta, hta.1, hta.2.1, hta.2.2⟩ hex⟩
      · exact ⟨fun _ => ⟨⟨tb, htb.1, htb.2.1, htb.2.2, by simp⟩, rfl⟩,
          fun hex => absurd ⟨tb, htb.1, htb.2.1, htb.2.2⟩ hex⟩

/-- Witness for `item_create_two_tags`: user 7 already owns a tag named `a`
and none named `b`. -/
theorem item_create_two_tags_witness :
    pC6.tags = ["a", "b"] ∧
    (dbC6.tags.map Tag.id).Nodup ∧
    (dbC6.tags.filter fun t => t.user == 7 && t.name == "a").length ≤ 1 ∧
    (dbC6.tags.filter fun t => t.user == 7 && t.name == "b").length ≤ 1 ∧
    (∃ db' it, item_create dbC6 7 pC6 = some (db', it)
      ∧ it.tags.length = 2
      ∧ ∀ name ∈ pC6.tags,
          ((∃ t ∈ dbC6.tags, t.user = 7 ∧ t.name = name) →
            (∃ t ∈ dbC6.tags, t.user = 7 ∧ t.name = name ∧ t.id ∈ it.tags)
              ∧ (db'.tags.filter fun x => x.user == 7 && x.name == name).length =
                (dbC6.tags.filter fun x => x.user == 7 && x.name == name).length)
          ∧ ((¬ ∃ t ∈ dbC6.tags, t.user = 7 ∧ t.name = name) →
            ∃ t ∈ db'.tags, t.user = 7 ∧ t.name = name ∧ t.id ∈ it.tags ∧ t ∉ dbC6.tags)) :=
  ⟨rfl, by decide, by decide, by decide,
    item_create_two_tags dbC6 7 pC6 rfl (by decide) (by decide) (by decide)⟩

/-- ASCII `toLower` is idempotent (a lowered character is never in `A`-`Z`). -/
theorem toLower_idem (c : Char) : c.toLower.toLower = c.toLower := by
  unfold Char.toLower
  by_cases h : 65 ≤ c.toNat ∧ c.toNat ≤ 90
  · rw [if_pos h]
    have hv : Char.toNat (Char.ofNat (c.toNat + 32)) = c.toNat + 32 := by
      rw [Char.ofNat, dif_pos (Or.inl (by omega : c.toNat + 32 < 55296))]
      rfl
    rw [if_neg (by omega)]
  · rw [if_neg h, if_neg h]

theorem strLower_idem (s : List Char) : strLower (strLower s) = strLower s := by
  unfold strLower
  rw [List.map_map]
  exact List.map_congr_left fun c _ => toLower_idem c

theorem ratio_congr {c c' : Claims} {it it' : Item}
    (hc : strLower c.description = strLower c'.description)
    (hi : strLower it.description = strLower it'.description) :
    claimItemRatio c it = claimItemRatio c' it' := by
  unfold claimItemRatio
  rw [hc, hi]

theorem fold_rel (c c' : Claims) (hc : strLower c.description = strLower c'.description) :
    ∀ {its its' : List Item}, List.Forall₂ caseVariantItem its its' →
      ∀ (b b' : Option Item) (r : ℚ), optionRel caseVariantItem b b' →
        optionRel caseVariantItem (its.foldl (matchStep c) (b, r)).1
            (its'.foldl (matchStep c') (b', r)).1
          ∧ (its.foldl (matchStep c) (b, r)).2 = (its'.foldl (matchStep c') (b', r)).2 := by
  intro its its' h
  induction h with
  | nil =>
    intro b b' r hb
    exact ⟨hb, rfl⟩
  | @cons x y tx ty hxy _ ih =>
    intro b b' r hb
    simp only [List.foldl_cons]
    have hr : claimItemRatio c x = claimItemRatio c' y := ratio_congr hc hxy.2.2.2.1
    unfold matchStep
    rw [hr]
    by_cases hcond : (r < claimItemRatio c' y ∧ (6 / 10 : ℚ) < claimItemRatio c' y)
    · rw [if_pos hcond, if_pos hcond]
      exact ih _ _ _ hxy
    · rw [if_neg hcond, if_neg hcond]
      exact ih _ _ _ hb

/-- C7: the matcher is case-insensitive.  Altering the claim's or any item's
description only in letter case yields the corresponding result (same
position, case-variant item); equivalently, matching on the lowercased
descriptions yields the corresponding result. -/
theorem matcher_case_insensitive (c c' : Claims) (its its' : List Item)
    (hc : strLower c.description = strLower c'.description)
    (h : List.Forall₂ caseVariantItem its its') :
    optionRel caseVariantItem (match_claim_to_item c its) (match_claim_to_item c' its')
    ∧ ∀ (d : Claims) (l : List Item),
        optionRel caseVariantItem (match_claim_to_item d l)
          (match_claim_to_item (lowerClaim d) (l.map lowerItem)) := by
  constructor
  · exact (fold_rel c c' hc h none none 0 trivial).1
  · intro d l
    have hcd : strLower d.description = strLower (lowerClaim d).description :=
      (strLower_idem d.description).symm
    have hl : List.Forall₂ caseVariantItem l (l.map lowerItem) := by
      induction l with
      | nil => exact List.Forall₂.nil
      | cons x tl ih =>
        exact List.Forall₂.cons
          ⟨rfl, rfl, rfl, (strLower_idem x.description).symm, rfl, rfl, rfl, rfl, rfl⟩ ih
    exact (fold_rel d (lowerClaim d) hcd hl none none 0 trivial).1

/-- Witness for `matcher_case_insensitive` at concrete case-variant inputs. -/
theorem matcher_case_insensitive_witness :
    strLower claimC7.description = strLower claimC7v.description ∧
      List.Forall₂ caseVariantItem [itemC7] [itemC7v] ∧
      optionRel caseVariantItem (match_claim_to_item claimC7 [itemC7])
        (match_claim_to_item claimC7v [itemC7v]) := by
  have h1 : strLower claimC7.description = strLower claimC7v.description := by
    with_unfolding_all rfl
  have h2 : List.Forall₂ caseVariantItem [itemC7] [itemC7v] :=
    List.Forall₂.cons
      ⟨rfl, rfl, rfl, by with_unfolding_all rfl, rfl, rfl, rfl, rfl, rfl⟩ List.Forall₂.nil
  exact ⟨h1, h2, (matcher_case_insensitive claimC7 claimC7v [itemC7] [itemC7v] h1 h2).1⟩

/-! ### `ratioQ s s = 1`

`find_longest_match` on two copies of the same string always returns the full
diagonal `(0, 0, n)`: the main loop's best block is always diagonal (an
off-diagonal chain of length `k` forces an equally long non-popular run whose
diagonal chain was already scored), and the extension loops then grow a
diagonal block to the whole string. -/

theorem b2j_of_ok {s : List Char} {c : Char} (h : okP s c) :
    b2j s c = listPositions s c := by
  unfold b2j
  rw [if_neg h]

theorem b2j_of_popular {s : List Char} {c : Char} (h : ¬ okP s c) :
    b2j s c = [] := by
  unfold b2j okP at *
  rw [if_pos (not_not.mp h)]

theorem mem_listPositions {s : List Char} {c : Char} {j : Nat} :
    j ∈ listPositions s c ↔ j < s.length ∧ s.getD j ' ' = c := by
  unfold listPositions
  simp [List.mem_filter, List.mem_range]

theorem listPositions_sorted (s : List Char) (c : Char) :
    (listPositions s c).Pairwise (· < ·) :=
  List.Pairwise.sublist (List.filter_sublist _) (List.pairwise_lt_range s.length)

theorem runLen_ok {s : List Char} {i : Nat} (h : okP s (s.getD i ' ')) :
    runLen s i = (if i = 0 then 0 else runLen s (i - 1)) + 1 := by
  cases i with
  | zero =>
    rw [runLen, if_pos h, if_pos rfl]
  | succ i =>
    rw [runLen, if_pos h, if_neg (Nat.succ_ne_zero i), Nat.add_sub_cancel]

theorem runLen_popular {s : List Char} {i : Nat} (h : ¬ okP s (s.getD i ' ')) :
    runLen s i = 0 := by
  cases i with
  | zero => rw [runLen, if_neg h]
  | succ i => rw [runLen, if_neg h]

theorem runLen_ge {s : List Char} :
    ∀ (m j : Nat), m ≤ j + 1 → (∀ t < m, okP s (s.getD (j - t) ' ')) → m ≤ runLen s j := by
  intro m
  induction m with
  | zero => intro j _ _; exact Nat.zero_le _
  | succ m ih =>
    intro j hm h
    have hok : okP s (s.getD j ' ') := by simpa using h 0 (Nat.succ_pos m)
    cases j with
    | zero =>
      have : m = 0 := by omega
      subst this
      rw [runLen, if_pos hok]
    | succ j =>
      rw [runLen, if_pos hok]
      have : m ≤ runLen s j := by
        refine ih j (by omega) fun t ht => ?_
        have := h (t + 1) (by omega)
        simpa [Nat.succ_sub_succ] using this
      omega

theorem runLen_le (s : List Char) : ∀ i : Nat, runLen s i ≤ i + 1
  | 0 => by
    rw [runLen]
    split <;> omega
  | i + 1 => by
    rw [runLen]
    have := runLen_le s i
    split <;> omega

theorem inner_diag (s : List Char) (i : Nat) (d : Int → Nat)
    (hdi : DictInv s i d) (hin : i < s.length) (hok : okP s (s.getD i ' ')) :
    ∀ (js : List Nat) (d' : Int → Nat) (b : Best),
      js.Pairwise (· < ·) →
      (∀ j ∈ js, j < s.length ∧ s.getD j ' ' = s.getD i ' ') →
      (∀ x : Int, x < 0 → d' x = 0) →
      (∀ j : Nat, d' j ≠ 0 → j < s.length ∧ chainOk s i j (d' j)) →
      b.besti = b.bestj →
      b.besti + b.bestsize ≤ i + 1 →
      (∀ i' < i, runLen s i' ≤ b.bestsize) →
      (i ∈ js ∨ (runLen s i ≤ b.bestsize ∧ d' i = runLen s i)) →
      (∀ x : Int, x < 0 → (innerLoop d 0 s.length i js d' b).1 x = 0) ∧
      (∀ j : Nat, (innerLoop d 0 s.length i js d' b).1 j ≠ 0 →
        j < s.length ∧ chainOk s i j ((innerLoop d 0 s.length i js d' b).1 j)) ∧
      (innerLoop d 0 s.length i js d' b).2.besti = (innerLoop d 0 s.length i js d' b).2.bestj ∧
      (innerLoop d 0 s.length i js d' b).2.besti +
          (innerLoop d 0 s.length i js d' b).2.bestsize ≤ i + 1 ∧
      (∀ i' < i, runLen s i' ≤ (innerLoop d 0 s.length i js d' b).2.bestsize) ∧
      runLen s i ≤ (innerLoop d 0 s.length i js d' b).2.bestsize ∧
      (innerLoop d 0 s.length i js d' b).1 i = runLen s i := by
  intro js
  induction js with
  | nil =>
    intro d' b _ _ hneg hent hdiag hfit hruns hphase
    rcases hphase with hmem | ⟨h1, h2⟩
    · exact absurd hmem (List.not_mem_nil i)
    · exact ⟨hneg, hent, hdiag, hfit, hruns, h1, h2⟩
  | cons j js' ih =>
    intro d' b hsort hmem hneg hent hdiag hfit hruns hphase
    obtain ⟨hjn, hjc⟩ := hmem j (List.mem_cons_self j js')
    have hstep : innerLoop d 0 s.length i (j :: js') d' b =
        (if j < 0 then innerLoop d 0 s.length i js' d' b
        else if s.length ≤ j then (d', b)
        else
          if b.bestsize < d ((j : Int) - 1) + 1 then
            innerLoop d 0 s.length i js'
              (fun x => if x = (j : Int) then d ((j : Int) - 1) + 1 else d' x)
              ⟨i + 1 - (d ((j : Int) - 1) + 1), j + 1 - (d ((j : Int) - 1) + 1),
                d ((j : Int) - 1) + 1⟩
          else
            innerLoop d 0 s.length i js'
              (fun x => if x = (j : Int) then d ((j : Int) - 1) + 1 else d' x) b) := rfl
    rw [hstep, if_neg (Nat.not_lt_zero j), if_neg (not_le.mpr hjn)]
    set k := d ((j : Int) - 1) + 1 with hk
    set d'' : Int → Nat := fun x => if x = (j : Int) then k else d' x with hd''
    -- the fresh entry is a valid chain ending at row i
    have hchain : chainOk s i j k := by
      by_cases hmv : d ((j : Int) - 1) = 0
      · rw [hk, hmv]
        refine ⟨by omega, by omega, ?_⟩
        intro t ht
        have ht0 : t = 0 := by omega
        subst ht0
        simp only [Nat.sub_zero]
        rw [hjc]
        exact ⟨rfl, hok⟩
      · have hj1 : 1 ≤ j := by
          by_contra hj0
          have : j = 0 := by omega
          subst this
          exact hmv (hdi.1 _ (by norm_num))
        have hcast : ((j : Int) - 1) = ((j - 1 : Nat) : Int) := by
          omega
        rw [hcast] at hk hmv
        obtain ⟨hi1, hjn', hco⟩ := hdi.2.1 (j - 1) hmv
        obtain ⟨hc1, hc2, hc3⟩ := hco
        refine ⟨by omega, by omega, ?_⟩
        intro t ht
        cases t with
        | zero =>
          simp only [Nat.sub_zero]
          rw [hjc]
          exact ⟨rfl, hok⟩
        | succ t' =>
          have ht' : t' < d ((j - 1 : Nat) : Int) := by omega
          obtain ⟨he, ho⟩ := hc3 t' ht'
          have e1 : j - (t' + 1) = j - 1 - t' := by omega
          have e2 : i - (t' + 1) = i - 1 - t' := by omega
          rw [e1, e2]
          exact ⟨he, ho⟩
    -- chains never beat the recorded runs off the diagonal
    rcases Nat.lt_trichotomy j i with hji | hji | hji
    · -- j < i : the run ending at j already dominates k
      have hkrun : k ≤ runLen s j :=
        runLen_ge k j hchain.1 fun t ht => (hchain.2.2 t ht).2
      have hnoupd : ¬ b.bestsize < k := by
        have := hruns j hji
        omega
      rw [if_neg hnoupd]
      have hiphase : i ∈ js' ∨ (runLen s i ≤ b.bestsize ∧ d'' i = runLen s i) := by
        rcases hphase with hmemi | ⟨h1, h2⟩
        · rcases List.mem_cons.mp hmemi with h | h
          · omega
          · exact Or.inl h
        · refine Or.inr ⟨h1, ?_⟩
          simp only [hd'']
          rw [if_neg (by omega : ¬ ((i : Int) = (j : Int)))]
          exact h2
      refine ih d'' b (List.Pairwise.of_cons hsort)
        (fun x hx => hmem x (List.mem_cons_of_mem _ hx)) ?_ ?_ hdiag hfit hruns hiphase
      · intro x hx
        simp only [hd'']
        rw [if_neg (by omega : ¬ (x = (j : Int)))]
        exact hneg x hx
      · intro j' hj'
        simp only [hd''] at hj' ⊢
        by_cases hx : (j' : Int) = (j : Int)
        · have : j' = j := by omega
          subst this
          rw [if_pos hx] at hj' ⊢
          exact ⟨hjn, hchain⟩
        · rw [if_neg hx] at hj' ⊢
          exact hent j' hj'
    · -- j = i : the diagonal step; k is exactly the run ending at i
      subst hji
      have hkrun : k = runLen s j := by
        by_cases hj0 : j = 0
        · subst hj0
          rw [hk, hdi.1 _ (by norm_num)]
          rw [runLen_ok hok, if_pos rfl]
        · have hj1 : 1 ≤ j := by omega
          rw [hk, hdi.2.2 hj1]
          rw [runLen_ok hok, if_neg hj0]
      have hinot : j ∉ js' := by
        intro hmem'
        have := List.rel_of_pairwise_cons hsort hmem'
        omega
      have hk1 : k ≤ j + 1 := hchain.1
      by_cases hupd : b.bestsize < k
      · rw [if_pos hupd]
        refine ih d'' ⟨j + 1 - k, j + 1 - k, k⟩ (List.Pairwise.of_cons hsort)
          (fun x hx => hmem x (List.mem_cons_of_mem _ hx)) ?_ ?_ rfl ?_ ?_ ?_
        · intro x hx
          simp only [hd'']
          rw [if_neg (by omega : ¬ (x = (j : Int)))]
          exact hneg x hx
        · intro j' hj'
          simp only [hd''] at hj' ⊢
          by_cases hx : (j' : Int) = (j : Int)
          · have : j' = j := by omega
            subst this
            rw [if_pos hx] at hj' ⊢
            exact ⟨hjn, hchain⟩
          · rw [if_neg hx] at hj' ⊢
            exact hent j' hj'
        · show j + 1 - k + k ≤ j + 1
          omega

        · intro i' hi'
          have := hruns i' hi'
          show runLen s i' ≤ k
          omega
        · refine Or.inr ⟨?_, ?_⟩
          · show runLen s j ≤ k
            omega
          · show (if ((j : Int)) = ((j : Int)) then k else d' j) = runLen s j
            rw [if_pos rfl]
            exact hkrun
      · rw [if_neg hupd]
        refine ih d'' b (List.Pairwise.of_cons hsort)
          (fun x hx => hmem x (List.mem_cons_of_mem _ hx)) ?_ ?_ hdiag hfit hruns ?_
        · intro x hx
          simp only [hd'']
          rw [if_neg (by omega : ¬ (x = (j : Int)))]
          exact hneg x hx
        · intro j' hj'
          simp only [hd''] at hj' ⊢
          by_cases hx : (j' : Int) = (j : Int)
          · have : j' = j := by omega
            subst this
            rw [if_pos hx] at hj' ⊢
            exact ⟨hjn, hchain⟩
          · rw [if_neg hx] at hj' ⊢
            exact hent j' hj'
        · refine Or.inr ⟨by omega, ?_⟩
          show (if ((j : Int)) = ((j : Int)) then k else d' j) = runLen s j
          rw [if_pos rfl]
          exact hkrun
    · -- i < j : the diagonal was already processed, so the best dominates
      have hdone : runLen s i ≤ b.bestsize ∧ d' i = runLen s i := by
        rcases hphase with hmemi | h
        · rcases List.mem_cons.mp hmemi with h | h
          · omega
          · have := List.rel_of_pairwise_cons hsort h
            omega
        · exact h
      have hkrun : k ≤ runLen s i := by
        refine runLen_ge k i hchain.2.1 fun t ht => ?_
        obtain ⟨he, ho⟩ := hchain.2.2 t ht
        rw [he] at ho
        exact ho
      have hnoupd : ¬ b.bestsize < k := by omega
      rw [if_neg hnoupd]
      have hiphase : i ∈ js' ∨ (runLen s i ≤ b.bestsize ∧ d'' i = runLen s i) := by
        refine Or.inr ⟨hdone.1, ?_⟩
        simp only [hd'']
        rw [if_neg (by omega : ¬ ((i : Int) = (j : Int)))]
        exact hdone.2
      refine ih d'' b (List.Pairwise.of_cons hsort)
        (fun x hx => hmem x (List.mem_cons_of_mem _ hx)) ?_ ?_ hdiag hfit hruns hiphase
      · intro x hx
        simp only [hd'']
        rw [if_neg (by omega : ¬ (x = (j : Int)))]
        exact hneg x hx
      · intro j' hj'
        simp only [hd''] at hj' ⊢
        by_cases hx : (j' : Int) = (j : Int)
        · have : j' = j := by omega
          subst this
          rw [if_pos hx] at hj' ⊢
          exact ⟨hjn, hchain⟩
        · rw [if_neg hx] at hj' ⊢
          exact hent j' hj'

theorem row_step (s : List Char) (i : Nat) (d : Int → Nat) (b : Best)
    (hdi : DictInv s i d) (hbi : BestInv s i b) (hin : i < s.length) :
    DictInv s (i + 1) (innerLoop d 0 s.length i (b2j s (s.getD i ' ')) (fun _ => 0) b).1 ∧
      BestInv s (i + 1) (innerLoop d 0 s.length i (b2j s (s.getD i ' ')) (fun _ => 0) b).2 := by
  by_cases hok : okP s (s.getD i ' ')
  · rw [b2j_of_ok hok]
    have hmem : ∀ j ∈ listPositions s (s.getD i ' '),
        j < s.length ∧ s.getD j ' ' = s.getD i ' ' := by
      intro j hj
      exact mem_listPositions.mp hj
    have hiin : i ∈ listPositions s (s.getD i ' ') := mem_listPositions.mpr ⟨hin, rfl⟩
    obtain ⟨c1, c2, c3, c4, c5, c6, c7⟩ :=
      inner_diag s i d hdi hin hok (listPositions s (s.getD i ' ')) (fun _ => 0) b
        (listPositions_sorted s (s.getD i ' ')) hmem (fun _ _ => rfl)
        (fun j h => absurd rfl h) hbi.1 (by have := hbi.2.1; omega) hbi.2.2 (Or.inl hiin)
    refine ⟨⟨c1, ?_, ?_⟩, c3, c4, ?_⟩
    · intro j hj
      obtain ⟨h1, h2⟩ := c2 j hj
      exact ⟨by omega, h1, by simpa using h2⟩
    · intro h
      have hcast : (((i + 1 : Nat) : Int) - 1) = ((i : Nat) : Int) := by push_cast; ring
      rw [hcast]
      simpa using c7
    · intro i' hi'
      rcases Nat.lt_succ_iff_lt_or_eq.mp hi' with h | h
      · exact c5 i' h
      · subst h
        exact c6
  · rw [b2j_of_popular hok]
    have hstep : innerLoop d 0 s.length i ([] : List Nat) (fun _ => 0) b =
        ((fun _ => 0), b) := rfl
    rw [hstep]
    have hrun0 : runLen s i = 0 := runLen_popular hok
    refine ⟨⟨fun x _ => rfl, fun j h => absurd rfl h, fun _ => ?_⟩, hbi.1, ?_, ?_⟩
    · simp [hrun0]
    · show b.besti + b.bestsize ≤ i + 1
      have := hbi.2.1
      omega
    · intro i' hi'
      rcases Nat.lt_succ_iff_lt_or_eq.mp hi' with h | h
      · exact hbi.2.2 i' h
      · rw [h]
        show runLen s i ≤ b.bestsize
        simp [hrun0]

theorem outer_inv (s : List Char) : ∀ (m i₀ : Nat) (d : Int → Nat) (b : Best),
    DictInv s i₀ d → BestInv s i₀ b → i₀ + m ≤ s.length →
    BestInv s (i₀ + m) (outerLoop s s 0 s.length (List.range' i₀ m) d b).2 := by
  intro m
  induction m with
  | zero =>
    intro i₀ d b _ hb _
    simpa using hb
  | succ m ih =>
    intro i₀ d b hd hb hle
    rw [List.range'_succ]
    have hstep : outerLoop s s 0 s.length (i₀ :: List.range' (i₀ + 1) m) d b =
        outerLoop s s 0 s.length (List.range' (i₀ + 1) m)
          (innerLoop d 0 s.length i₀ (b2j s (s.getD i₀ ' ')) (fun _ => 0) b).1
          (innerLoop d 0 s.length i₀ (b2j s (s.getD i₀ ' ')) (fun _ => 0) b).2 := rfl
    rw [hstep]
    obtain ⟨hd', hb'⟩ := row_step s i₀ d b hd hb (by omega)
    have hres := ih (i₀ + 1) _ _ hd' hb' (by omega)
    rw [show i₀ + (m + 1) = (i₀ + 1) + m by omega]
    exact hres

theorem mainloop_result (s : List Char) :
    BestInv s s.length
      (outerLoop s s 0 s.length (List.range' 0 s.length) (fun _ => 0) ⟨0, 0, 0⟩).2 := by
  have h := outer_inv s s.length 0 (fun _ => 0) ⟨0, 0, 0⟩
    ⟨fun x _ => rfl, fun j h => absurd rfl h, fun h => absurd h (by omega)⟩
    ⟨rfl, by simp, fun i' h => absurd h (by omega)⟩ (by omega)
  simpa using h

theorem extendLower_diag (s : List Char) : ∀ (v k : Nat),
    extendLower s s 0 0 v v k = ⟨0, 0, k + v⟩ := by
  intro v
  induction v with
  | zero =>
    intro k
    rfl
  | succ v ih =>
    intro k
    rw [extendLower, if_pos ⟨Nat.succ_pos v, Nat.succ_pos v, rfl⟩, Nat.add_sub_cancel,
      ih (k + 1)]
    congr 1
    omega

theorem extendUpperF_diag (s : List Char) : ∀ (f m : Nat), f = s.length - m → m ≤ s.length →
    extendUpperF s s s.length s.length 0 0 f m = s.length := by
  intro f
  induction f with
  | zero =>
    intro m h1 h2
    rw [extendUpperF]
    omega
  | succ f ih =>
    intro m h1 h2
    rw [extendUpperF, if_pos ⟨by omega, by omega, rfl⟩]
    exact ih (m + 1) (by omega) (by omega)

theorem flm_self (s : List Char) :
    find_longest_match s s 0 s.length 0 s.length = ⟨0, 0, s.length⟩ := by
  unfold find_longest_match
  simp only [Nat.sub_zero]
  set B := (outerLoop s s 0 s.length (List.range' 0 s.length) (fun _ => 0) ⟨0, 0, 0⟩).2
    with hB
  obtain ⟨hdiag, hfit, -⟩ := mainloop_result s
  rw [← hB] at hdiag hfit
  rw [← hdiag, extendLower_diag s _ _]
  show (⟨0, 0, extendUpper s s s.length s.length 0 0 (B.bestsize + B.besti)⟩ : Best) =
    ⟨0, 0, s.length⟩
  have hup : extendUpper s s s.length s.length 0 0 (B.bestsize + B.besti) = s.length := by
    unfold extendUpper
    exact extendUpperF_diag s _ _ (by omega) (by omega)
  rw [hup]

theorem matchingSum_self (s : List Char) : matchingSum s s = s.length := by
  unfold matchingSum
  rw [matchSumF, flm_self]
  by_cases hn : s.length = 0
  · simp [hn]
  · rw [if_neg hn]
    simp

/-- For every string, `SequenceMatcher(None, s, s).ratio()` is `1`: the main
loop's best block on two equal strings is always diagonal and the extension
loops then grow it to the full string. -/
theorem ratio_self (s : List Char) : ratioQ s s = 1 := by
  unfold ratioQ calculateRatio
  rw [matchingSum_self]
  by_cases hn : s.length = 0
  · rw [hn]
    norm_num
  · rw [if_pos (by omega : s.length + s.length ≠ 0)]
    have hq : ((s.length : ℚ)) ≠ 0 := Nat.cast_ne_zero.mpr hn
    push_cast
    field_simp
    ring

theorem maxRatio_nil (c : Claims) : maxRatio c [] = 0 := rfl

theorem maxRatio_cons (c : Claims) (it : Item) (rest : List Item) :
    maxRatio c (it :: rest) = max (claimItemRatio c it) (maxRatio c rest) := rfl

theorem foldl_scan (c : Claims) :
    ∀ (its : List Item) (b : Option Item) (r : ℚ),
      its.foldl (matchStep c) (b, r) =
        if max r (6 / 10) < maxRatio c its then
          (its.find? fun it => decide (claimItemRatio c it = maxRatio c its), maxRatio c its)
        else (b, r) := by
  intro its
  induction its with
  | nil =>
    intro b r
    rw [if_neg]
    · rfl
    · rw [maxRatio_nil]
      exact not_lt.mpr (le_trans (by norm_num) (le_max_right r (6 / 10)))
  | cons it rest ih =>
    intro b r
    rw [List.foldl_cons, maxRatio_cons]
    by_cases hcond : r < claimItemRatio c it ∧ (6 / 10 : ℚ) < claimItemRatio c it
    · rw [show matchStep c (b, r) it = (some it, claimItemRatio c it) from by
        unfold matchStep
        rw [if_pos hcond]]
      rw [ih (some it) (claimItemRatio c it)]
      by_cases h1 : claimItemRatio c it < maxRatio c rest
      · have hM : max (claimItemRatio c it) (maxRatio c rest) = maxRatio c rest :=
          max_eq_right (le_of_lt h1)
        rw [hM]
        rw [if_pos (by
          rw [max_eq_left (le_of_lt hcond.2)]
          exact h1)]
        rw [if_pos (max_lt (lt_trans hcond.1 h1) (lt_trans hcond.2 h1))]
        rw [List.find?_cons_of_neg _ (by
          simp only [decide_eq_true_eq]
          exact ne_of_lt h1)]
      · have hle : maxRatio c rest ≤ claimItemRatio c it := not_lt.mp h1
        have hM : max (claimItemRatio c it) (maxRatio c rest) = claimItemRatio c it :=
          max_eq_left hle
        rw [hM]
        rw [if_neg (by
          rw [max_eq_left (le_of_lt hcond.2)]
          exact h1)]
        rw [if_pos (max_lt hcond.1 hcond.2)]
        rw [List.find?_cons_of_pos _ (by simp)]
    · rw [show matchStep c (b, r) it = (b, r) from by
        unfold matchStep
        rw [if_neg hcond]]
      rw [ih b r]
      have hit : claimItemRatio c it ≤ max r (6 / 10) := by
        rcases not_and_or.mp hcond with h | h
        · exact le_trans (not_lt.mp h) (le_max_left _ _)
        · exact le_trans (not_lt.mp h) (le_max_right _ _)
      by_cases h1 : max r (6 / 10) < maxRatio c rest
      · have hM : max (claimItemRatio c it) (maxRatio c rest) = maxRatio c rest :=
          max_eq_right (le_of_lt (lt_of_le_of_lt hit h1))
        rw [hM, if_pos h1, if_pos h1]
        rw [List.find?_cons_of_neg _ (by
          simp only [decide_eq_true_eq]
          exact ne_of_lt (lt_of_le_of_lt hit h1))]
      · have hle : maxRatio c rest ≤ max r (6 / 10) := not_lt.mp h1
        have hM : max (claimItemRatio c it) (maxRatio c rest) ≤ max r (6 / 10) :=
          max_le hit hle
        rw [if_neg h1, if_neg (not_lt.mpr hM)]

theorem matchStep_keep (c : Claims) (acc : Option Item × ℚ) (it : Item)
    (h : claimItemRatio c it ≤ acc.2) : matchStep c acc it = acc := by
  unfold matchStep
  rw [if_neg]
  rintro ⟨h1, -⟩
  exact absurd h1 (not_lt.mpr h)

theorem foldl_keep_big (c : Claims) :
    ∀ (its : List Item) (acc : Option Item × ℚ),
      (∀ it ∈ its, claimItemRatio c it ≤ acc.2) → its.foldl (matchStep c) acc = acc
  | [], _, _ => rfl
  | it :: rest, acc, h => by
    rw [List.foldl_cons, matchStep_keep c acc it (h it (List.mem_cons_self it rest)),
      foldl_keep_big c rest acc fun x hx => h x (List.mem_cons_of_mem _ hx)]

/-- C2 -/
theorem matcher_first_max (c : Claims) (items : List Item)
    (h : (6 / 10 : ℚ) < maxRatio c items) :
    match_claim_to_item c items =
      (items.find? fun it => decide (claimItemRatio c it = maxRatio c items))
    ∧ (∀ (c' : Claims) (it : Item), it.description = c'.description →
        claimItemRatio c' it = 1)
    ∧ (∀ (c' : Claims) (its : List Item),
        (∀ it ∈ its, it.description = c'.description) →
        match_claim_to_item c' its = its.head?) := by
  have hone : ∀ (c' : Claims) (it : Item), it.description = c'.description →
      claimItemRatio c' it = 1 := by
    intro c' it hd
    unfold claimItemRatio
    rw [hd]
    exact ratio_self _
  refine ⟨?_, hone, ?_⟩
  · rw [match_eq_foldl, foldl_scan]
    rw [if_pos (by
      rw [max_eq_right (by norm_num : (0 : ℚ) ≤ 6 / 10)]
      exact h)]
  · intro c' its hall
    cases its with
    | nil => rfl
    | cons x tl =>
      rw [match_eq_foldl, List.foldl_cons]
      have hx : claimItemRatio c' x = 1 := hone c' x (hall x (List.mem_cons_self x tl))
      have hstep : matchStep c' ((none : Option Item), (0 : ℚ)) x = (some x, 1) := by
        unfold matchStep
        rw [hx]
        rw [if_pos ⟨by norm_num, by norm_num⟩]
      rw [hstep, foldl_keep_big c' tl (some x, 1) (fun it hit => by
        rw [hone c' it (hall it (List.mem_cons_of_mem _ hit))])]
      rfl

/-- Witness for `matcher_first_max`: two items with identical descriptions
equal to the claim's; the maximum ratio is `1 > 0.6` and the first item wins. -/
theorem matcher_first_max_witness :
    (6 / 10 : ℚ) < maxRatio claimC2 [itemC2a, itemC2b] ∧
      match_claim_to_item claimC2 [itemC2a, itemC2b] =
        ([itemC2a, itemC2b].find? fun it =>
          decide (claimItemRatio claimC2 it = maxRatio claimC2 [itemC2a, itemC2b])) ∧
      match_claim_to_item claimC2 [itemC2a, itemC2b] = some itemC2a := by
  have hr : claimItemRatio claimC2 itemC2a = 1 := by
    unfold claimItemRatio itemC2a claimC2
    exact ratio_self _
  have hr2 : claimItemRatio claimC2 itemC2b = 1 := by
    unfold claimItemRatio itemC2b claimC2
    exact ratio_self _
  have hmax : maxRatio claimC2 [itemC2a, itemC2b] = 1 := by
    rw [maxRatio_cons, maxRatio_cons, maxRatio_nil, hr, hr2]
    norm_num
  have h : (6 / 10 : ℚ) < maxRatio claimC2 [itemC2a, itemC2b] := by
    rw [hmax]
    norm_num
  obtain ⟨h1, -, h3⟩ := matcher_first_max claimC2 [itemC2a, itemC2b] h
  refine ⟨h, h1, ?_⟩
  rw [h3 claimC2 [itemC2a, itemC2b] (by
    intro it hit
    rcases List.mem_pair.mp hit with h | h <;> subst h <;> rfl)]
  rfl

/-- Witness for `claims_create_status_writable` at a concrete database and
payload. -/
theorem claims_create_status_writable_witness :
    ((dbC10.items.any fun it => it.id == pC10.item) = true) ∧
      (∀ s, pC10.status = some s → s ∈ claimsChoices) ∧
      (claims_create dbC10 9 false pC10).1 = 201 ∧
      (claims_create dbC10 9 false pC10).2.2.map Claims.status =
        some (pC10.status.getD "pending") := by
  have hs : ∀ s, pC10.status = some s → s ∈ claimsChoices := by
    intro s hs
    injection hs with h
    rw [← h]
    decide
  obtain ⟨h1, h2⟩ := claims_create_status_writable dbC10 9 pC10 (by decide) hs
  exact ⟨by decide, hs, h1, h2⟩

end LostFound
